import Mathlib

/-!
Verification of the `ctwatch` scanner (scanner.go).

The Go code is shallowly embedded as executable Lean functions.  Machine
`int64` values are modelled as `Int` (no claim here exercises wraparound),
Go slices and channel contents become Lean lists in FIFO order, and the
potentially non-terminating loops of the source (the partition loop of
`Scan`, whose step need not make progress when `BatchSize <= 0`, and the
unbounded retry loop of `fetcherJob`) are embedded with an explicit fuel
parameter: a `none` result means the loop has not finished within the
given fuel.  The concurrent pipeline is verified on its deterministic
linearization (one fetcher, one processor), which is the schedule the
order-sensitive claims are about; the orchestration order of `Scan`
itself is additionally embedded as an event trace.
-/

/-- One entry of the CT log (`ct.LogEntry`): the `Index` field that
`fetcherJob` overwrites, plus an opaque payload standing for the leaf
data. -/
structure LogEntry where
  Index : Int
  Leaf : Nat
deriving DecidableEq

/-- `fetchRange` from scanner.go: a range of certs to fetch, inclusive on
both ends. -/
structure fetchRange where
  start : Int
  «end» : Int
deriving DecidableEq

/-- The `logClient.GetEntries` capability.  The first argument is a call
counter (number of `GetEntries` calls made so far by this worker), which
lets a fake capability behave statefully (fail once then succeed, return
half of the range, ...).  The remaining arguments are the requested
`start` and `end`; the result is the returned slice or an error. -/
def GetEntriesFn : Type := Nat → Int → Int → Except String (List LogEntry)

/-- `min` from scanner.go, on int64. -/
def ctMin (a b : Int) : Int :=
  if a < b then a else b

/-- The partition loop of `Scan` (scanner.go lines 188-193):
`for start := startIndex; start < endIndex; { end := min(start+batchSize, endIndex) - 1;
ranges.PushBack(fetchRange{start, end}); start = end + 1 }`,
with fuel.  `none` means the loop did not finish within `fuel` steps. -/
def partitionRanges : Nat → Int → Int → Int → List fetchRange → Option (List fetchRange)
  | 0, _, _, _, _ => none
  | fuel + 1, start, endIndex, batchSize, ranges =>
    if start < endIndex then
      let e := ctMin (start + batchSize) endIndex - 1
      partitionRanges fuel (e + 1) endIndex batchSize (ranges ++ [⟨start, e⟩])
    else
      some ranges

/-- `[s, s+1, ..., s+n-1]` as a list of `Int`. -/
def intRangeGo : Nat → Int → List Int
  | 0, _ => []
  | n + 1, s => s :: intRangeGo n (s + 1)

/-- The list of integers of `[s, e]` (inclusive), ascending; empty when
`e < s`. -/
def intRange (s e : Int) : List Int :=
  intRangeGo (e + 1 - s).toNat s

/-- Decidable check that a list of `fetchRange`s partitions `[s, e)`
exactly, in ascending order, each range nonempty and at most `b` wide:
the first range starts at `s`, each subsequent range starts right after
the previous one ends, and the last range ends at `e - 1`. -/
def coversB (b : Int) : Int → Int → List fetchRange → Bool
  | s, e, [] => s == e
  | s, e, r :: rest =>
    (r.start == s) && decide (r.start ≤ r.«end») &&
      decide (r.«end» - r.start + 1 ≤ b) && coversB b (r.«end» + 1) e rest

/-- Decidable check that consecutive ranges are adjacent:
`r_i.end + 1 = r_{i+1}.start`. -/
def chainB : List fetchRange → Bool
  | [] => true
  | [_] => true
  | r :: r' :: rest => (r.«end» + 1 == r'.start) && chainB (r' :: rest)

/-- The indices covered by a list of ranges, in order. -/
def rangeIndices : List fetchRange → List Int
  | [] => []
  | r :: rest => intRange r.start r.«end» ++ rangeIndices rest

/-- The inner entry loop of `fetcherJob` (scanner.go lines 92-96): each
returned entry gets `Index` overwritten with the current `r.start`, is
sent on the entries channel, and `r.start` is incremented. -/
def pushEntries : Int → List LogEntry → List LogEntry
  | _, [] => []
  | start, logEntry :: rest => { logEntry with Index := start } :: pushEntries (start + 1) rest

/-- The state a fetch worker reads and writes: `out` is what it has sent
on the `entries` channel so far (FIFO), `warnings` the `Warn` log lines,
`certsProcessed` the Scanner's shared counter (scanner.go line 54), and
`calls` the number of `GetEntries` calls made so far. -/
structure FetchState where
  out : List LogEntry
  warnings : List String
  certsProcessed : Int
  calls : Nat
deriving DecidableEq

/-- The retry loop of `fetcherJob` for one range (scanner.go lines
83-103): call `GetEntries(r.start, r.end)`; on error log a warning and
retry; on success push each entry with `Index := r.start` (incrementing
`r.start`), then finish only if `r.start > r.end`, else call again for
the narrowed `[r.start, r.end]`.  Fuel bounds the number of calls;
`none` means the loop was still running when fuel ran out. -/
def fetcherJobRange (f : GetEntriesFn) : Nat → fetchRange → FetchState → Option FetchState
  | 0, _, _ => none
  | fuel + 1, r, st =>
    match f st.calls r.start r.«end» with
    | Except.error err =>
      fetcherJobRange f fuel r
        { st with warnings := st.warnings ++ ["Problem fetching from log: " ++ err],
                  calls := st.calls + 1 }
    | Except.ok logEntries =>
      let st' := { st with out := st.out ++ pushEntries r.start logEntries,
                           calls := st.calls + 1 }
      let newStart := r.start + (logEntries.length : Int)
      if newStart > r.«end» then some st'
      else fetcherJobRange f fuel ⟨newStart, r.«end»⟩ st'

/-- `fetcherJob` (scanner.go lines 81-107): service the ranges received
from the `ranges` channel in order; the worker returns (and `wg.Done()`
runs) exactly when the channel is closed and drained, i.e. when the list
is exhausted. -/
def fetcherJob (f : GetEntriesFn) (fuel : Nat) : List fetchRange → FetchState → Option FetchState
  | [], st => some st
  | r :: rest, st =>
    match fetcherJobRange f fuel r st with
    | none => none
    | some st' => fetcherJob f fuel rest st'

/-- `processerJob` (scanner.go lines 66-73): for each entry received from
the `entries` channel, atomically increment `certsProcessed`, then invoke
`processCert`.  Returns the final counter and the list of entries passed
to the callback, in invocation order. -/
def processerJob : List LogEntry → Int → Int × List LogEntry
  | [], certsProcessed => (certsProcessed, [])
  | entry :: rest, certsProcessed =>
    let r := processerJob rest (certsProcessed + 1)
    (r.1, entry :: r.2)

/-- The observable outcome of one `Scan` call: the entries handed to the
callback in order, the final `certsProcessed`, the warning log, and the
Go return value of `Scan` (`none` models `nil`). -/
structure ScanResult where
  handlerCalls : List LogEntry
  certsProcessed : Int
  warnings : List String
  err : Option String
deriving DecidableEq

/-- `Scan` (scanner.go lines 167-216) on its deterministic linearization
with one fetch worker and one process worker: reset `certsProcessed` to
0, partition `[startIndex, endIndex)` into batches, run the fetch worker
over all ranges, then the process worker over all queued entries, and
return `nil`.  `none` means some loop inside `Scan` was still running
when the fuel ran out (the call has not returned). -/
def Scan (f : GetEntriesFn) (fuel : Nat) (startIndex endIndex batchSize : Int) :
    Option ScanResult :=
  match partitionRanges fuel startIndex endIndex batchSize [] with
  | none => none
  | some ranges =>
    match fetcherJob f fuel ranges ⟨[], [], 0, 0⟩ with
    | none => none
    | some st =>
      let p := processerJob st.out st.certsProcessed
      some ⟨p.2, p.1, st.warnings, none⟩

/-- A fake capability that always returns the full requested range on
every call (payloads are irrelevant: `fetcherJob` overwrites indices). -/
def fullFetch : GetEntriesFn :=
  fun _ start e => Except.ok (List.replicate (e + 1 - start).toNat ⟨0, 0⟩)

/-- A fake capability that always fails. -/
def failFetch : GetEntriesFn :=
  fun _ _ _ => Except.error "connection refused"

/-- The signed tree head returned by `logClient.GetSTH`; only the
`TreeSize` field is used by the scanner. -/
structure SignedTreeHead where
  TreeSize : Int
deriving DecidableEq

/-- `Scanner.TreeSize` (scanner.go lines 159-165), over the result of the
`GetSTH` capability: Go's `(int64, error)` pair is modelled as
`Int × Option String`.  On error it returns `(0, err)`, otherwise the
fetched tree size and `nil`. -/
def TreeSize (getSTH : Except String SignedTreeHead) : Int × Option String :=
  match getSTH with
  | Except.error err => (0, some err)
  | Except.ok latestSth => (latestSth.TreeSize, none)

/-- `humanTime` (scanner.go lines 129-147).  `time.Duration` is an int64
count of nanoseconds; Go's integer division and remainder truncate
toward zero (`Int.tdiv` / `Int.tmod`). -/
def humanTime (seconds : Int) : String :=
  let nanos := seconds * 1000000000
  let hours := Int.tdiv nanos 3600000000000
  let nanos := Int.tmod nanos 3600000000000
  let minutes := Int.tdiv nanos 60000000000
  let nanos := Int.tmod nanos 60000000000
  let seconds := Int.tdiv nanos 1000000000
  let s := ""
  let s := if hours > 0 then s ++ toString hours ++ " hours " else s
  let s := if minutes > 0 then s ++ toString minutes ++ " minutes " else s
  let s := if seconds > 0 then s ++ toString seconds ++ " seconds " else s
  s

/-- The orchestration actions of `Scan` (scanner.go lines 194-212), in
program order: starting workers, feeding the work queue, closing it,
waiting on the fetcher pool, closing the entry queue, waiting on the
processor pool. -/
inductive ScanEvent
  | startProcessor (id : Nat)
  | startFetcher (id : Nat)
  | enqueueRange (r : fetchRange)
  | closeWorkQueue
  | waitFetchers
  | closeEntryQueue
  | waitProcessors
deriving DecidableEq

/-- The event trace of one `Scan` call, transcribed statement by
statement from scanner.go lines 196-212: start `NumWorkers` processors,
start `ParallelFetch` fetchers, enqueue every partitioned range in
order, `close(fetches)`, `fetcherWG.Wait()`, `close(jobs)`,
`processorWG.Wait()`. -/
def scanEvents (numWorkers parallelFetch : Nat) (ranges : List fetchRange) : List ScanEvent :=
  (List.range numWorkers).map ScanEvent.startProcessor ++
    (List.range parallelFetch).map ScanEvent.startFetcher ++
    ranges.map ScanEvent.enqueueRange ++
    [ScanEvent.closeWorkQueue, ScanEvent.waitFetchers,
      ScanEvent.closeEntryQueue, ScanEvent.waitProcessors]

/-- Shutdown-order automaton: phase 0 (running) admits worker starts and
range enqueues; `closeWorkQueue` moves to phase 1, after which only
`waitFetchers` (phase 2), then `closeEntryQueue` (phase 3), then
`waitProcessors` (phase 4) are admitted, in that order and exactly
once each.  Any other event is rejected. -/
def shutdownPhase : Nat → ScanEvent → Option Nat
  | 0, ScanEvent.startProcessor _ => some 0
  | 0, ScanEvent.startFetcher _ => some 0
  | 0, ScanEvent.enqueueRange _ => some 0
  | 0, ScanEvent.closeWorkQueue => some 1
  | 1, ScanEvent.waitFetchers => some 2
  | 2, ScanEvent.closeEntryQueue => some 3
  | 3, ScanEvent.waitProcessors => some 4
  | _, _ => none

/-- Run the shutdown-order automaton over a trace. -/
def runPhases : Nat → List ScanEvent → Option Nat
  | phase, [] => some phase
  | phase, ev :: rest =>
    match shutdownPhase phase ev with
    | none => none
    | some phase' => runPhases phase' rest

theorem ctMin_eq_min (a b : Int) : ctMin a b = min a b := by
  unfold ctMin
  split_ifs <;> omega

theorem intRangeGo_length (n : Nat) (s : Int) : (intRangeGo n s).length = n := by
  induction n generalizing s with
  | zero => rfl
  | succ n ih => simp [intRangeGo, ih]

theorem intRange_length (s e : Int) : (intRange s e).length = (e + 1 - s).toNat := by
  simp [intRange, intRangeGo_length]

theorem intRangeGo_append (m n : Nat) (s : Int) :
    intRangeGo (m + n) s = intRangeGo m s ++ intRangeGo n (s + m) := by
  induction m generalizing s with
  | zero => simp [intRangeGo]
  | succ m ih =>
    have h : m + 1 + n = (m + n) + 1 := by omega
    rw [h]
    simp only [intRangeGo, ih (s + 1), List.cons_append]
    have h2 : s + 1 + (m : Int) = s + ((m : Nat) + 1 : Nat) := by push_cast; ring
    rw [h2]

theorem intRange_append (s m e : Int) (h1 : s ≤ m) (h2 : m ≤ e + 1) :
    intRange s (m - 1) ++ intRange m e = intRange s e := by
  unfold intRange
  have ha : (e + 1 - s).toNat = (m - 1 + 1 - s).toNat + (e + 1 - m).toNat := by omega
  rw [ha, intRangeGo_append]
  have hb : s + ((m - 1 + 1 - s).toNat : Int) = m := by omega
  rw [hb]

theorem intRange_cons (s e : Int) (h : s ≤ e) :
    intRange s e = s :: intRange (s + 1) e := by
  unfold intRange
  have ha : (e + 1 - s).toNat = (e + 1 - (s + 1)).toNat + 1 := by omega
  rw [ha]
  rfl

theorem intRange_nil (s e : Int) (h : e < s) : intRange s e = [] := by
  unfold intRange
  have ha : (e + 1 - s).toNat = 0 := by omega
  rw [ha]
  rfl

theorem partitionRanges_stop (fuel : Nat) (s e b : Int) (acc : List fetchRange)
    (h : e ≤ s) : partitionRanges (fuel + 1) s e b acc = some acc := by
  simp only [partitionRanges]
  rw [if_neg (by omega)]

theorem partitionRanges_covers (e b : Int) (hb : 0 < b) :
    ∀ fuel s acc, s < e → (e - s).toNat < fuel →
      ∃ l, partitionRanges fuel s e b acc = some (acc ++ l) ∧ coversB b s e l = true := by
  intro fuel
  induction fuel with
  | zero => intro s acc hse hfuel; omega
  | succ fuel ih =>
    intro s acc hse hfuel
    have hmin : ctMin (s + b) e = min (s + b) e := ctMin_eq_min _ _
    simp only [partitionRanges]
    rw [if_pos hse]
    by_cases hlast : ctMin (s + b) e - 1 + 1 < e
    · obtain ⟨l, heq, hcov⟩ :=
        ih (ctMin (s + b) e - 1 + 1) (acc ++ [⟨s, ctMin (s + b) e - 1⟩]) hlast (by omega)
      refine ⟨⟨s, ctMin (s + b) e - 1⟩ :: l, ?_, ?_⟩
      · rw [heq, List.append_assoc]
        rfl
      · simp only [coversB, Bool.and_eq_true, beq_iff_eq, decide_eq_true_eq]
        refine ⟨⟨⟨trivial, by omega⟩, by omega⟩, hcov⟩
    · obtain ⟨fuel, rfl⟩ : ∃ f, fuel = f + 1 := ⟨fuel - 1, by omega⟩
      rw [partitionRanges_stop _ _ _ _ _ (by omega)]
      refine ⟨[⟨s, ctMin (s + b) e - 1⟩], rfl, ?_⟩
      simp only [coversB, Bool.and_eq_true, beq_iff_eq, decide_eq_true_eq]
      refine ⟨⟨⟨trivial, by omega⟩, by omega⟩, by omega⟩

theorem partitionRanges_nonpos (e b : Int) (hb : b ≤ 0) :
    ∀ fuel s acc, s < e → partitionRanges fuel s e b acc = none := by
  intro fuel
  induction fuel with
  | zero => intro s acc hse; rfl
  | succ fuel ih =>
    intro s acc hse
    have hmin : ctMin (s + b) e = min (s + b) e := ctMin_eq_min _ _
    simp only [partitionRanges]
    rw [if_pos hse]
    exact ih _ _ (by omega)

theorem coversB_le (b : Int) :
    ∀ l s e, coversB b s e l = true → s ≤ e := by
  intro l
  induction l with
  | nil =>
    intro s e h
    simp only [coversB, beq_iff_eq] at h
    omega
  | cons r rest ih =>
    intro s e h
    simp only [coversB, Bool.and_eq_true, beq_iff_eq, decide_eq_true_eq] at h
    obtain ⟨⟨⟨h1, h2⟩, h3⟩, h4⟩ := h
    have := ih _ _ h4
    omega

theorem coversB_head (b : Int) :
    ∀ l s e, coversB b s e l = true → s < e →
      l.head?.map fetchRange.start = some s := by
  intro l
  cases l with
  | nil =>
    intro s e h hse
    simp only [coversB, beq_iff_eq] at h
    omega
  | cons r rest =>
    intro s e h hse
    simp only [coversB, Bool.and_eq_true, beq_iff_eq, decide_eq_true_eq] at h
    simp [h.1.1.1]

theorem coversB_chain (b : Int) :
    ∀ l s e, coversB b s e l = true → chainB l = true := by
  intro l
  induction l with
  | nil => intro s e h; rfl
  | cons r rest ih =>
    intro s e h
    simp only [coversB, Bool.and_eq_true, beq_iff_eq, decide_eq_true_eq] at h
    obtain ⟨⟨⟨h1, h2⟩, h3⟩, h4⟩ := h
    cases rest with
    | nil => rfl
    | cons r' rest' =>
      simp only [coversB, Bool.and_eq_true, beq_iff_eq, decide_eq_true_eq] at h4
      simp only [chainB, Bool.and_eq_true, beq_iff_eq]
      exact ⟨h4.1.1.1.symm, ih _ _ (by
        simp only [coversB, Bool.and_eq_true, beq_iff_eq, decide_eq_true_eq]
        exact h4)⟩

theorem coversB_last (b : Int) :
    ∀ l s e, coversB b s e l = true → s < e →
      l.getLast?.map (fun r => r.«end») = some (e - 1) := by
  intro l
  induction l with
  | nil =>
    intro s e h hse
    simp only [coversB, beq_iff_eq] at h
    omega
  | cons r rest ih =>
    intro s e h hse
    simp only [coversB, Bool.and_eq_true, beq_iff_eq, decide_eq_true_eq] at h
    obtain ⟨⟨⟨h1, h2⟩, h3⟩, h4⟩ := h
    cases rest with
    | nil =>
      simp only [coversB, beq_iff_eq] at h4
      simp only [List.getLast?_singleton, Option.map_some', Option.some.injEq]
      omega
    | cons r' rest' =>
      rw [List.getLast?_cons_cons]
      refine ih _ _ h4 ?_
      simp only [coversB, Bool.and_eq_true, beq_iff_eq, decide_eq_true_eq] at h4
      have := coversB_le b rest' _ _ h4.2
      omega

theorem coversB_width (b : Int) :
    ∀ l s e, coversB b s e l = true →
      ∀ r ∈ l, r.start ≤ r.«end» ∧ r.«end» - r.start + 1 ≤ b := by
  intro l
  induction l with
  | nil => intro s e h r hr; cases hr
  | cons r0 rest ih =>
    intro s e h r hr
    simp only [coversB, Bool.and_eq_true, beq_iff_eq, decide_eq_true_eq] at h
    obtain ⟨⟨⟨h1, h2⟩, h3⟩, h4⟩ := h
    rcases List.mem_cons.mp hr with rfl | hr'
    · exact ⟨h2, h3⟩
    · exact ih _ _ h4 r hr'

theorem coversB_rangeIndices (b : Int) :
    ∀ l s e, coversB b s e l = true →
      rangeIndices l = intRange s (e - 1) := by
  intro l
  induction l with
  | nil =>
    intro s e h
    simp only [coversB, beq_iff_eq] at h
    rw [rangeIndices, h, intRange_nil _ _ (by omega)]
  | cons r rest ih =>
    intro s e h
    simp only [coversB, Bool.and_eq_true, beq_iff_eq, decide_eq_true_eq] at h
    obtain ⟨⟨⟨h1, h2⟩, h3⟩, h4⟩ := h
    have hle := coversB_le b rest _ _ h4
    rw [rangeIndices, ih _ _ h4, h1]
    have happ := intRange_append s (r.«end» + 1) (e - 1) (by omega) (by omega)
    have hm : r.«end» + 1 - 1 = r.«end» := by ring
    rw [hm] at happ
    exact happ

theorem pushEntries_map : ∀ (es : List LogEntry) (s : Int),
    (pushEntries s es).map LogEntry.Index = intRange s (s + (es.length : Int) - 1) := by
  intro es
  induction es with
  | nil =>
    intro s
    rw [pushEntries, List.map_nil,
      intRange_nil _ _ (by simp only [List.length_nil, Int.natCast_zero]; omega)]
  | cons entry rest ih =>
    intro s
    rw [pushEntries, List.map_cons, ih (s + 1)]
    rw [intRange_cons s (s + ((entry :: rest).length : Int) - 1)
      (by simp only [List.length_cons]; omega)]
    have harg : s + 1 + (rest.length : Int) - 1 = s + (((entry :: rest).length : Nat) : Int) - 1 := by
      simp only [List.length_cons]
      push_cast
      ring
    rw [harg]

theorem fetcherJobRange_retry (f : GetEntriesFn) (fuel : Nat) (r : fetchRange)
    (st : FetchState) (err : String) (h : f st.calls r.start r.«end» = Except.error err) :
    fetcherJobRange f (fuel + 1) r st =
      fetcherJobRange f fuel r
        { st with warnings := st.warnings ++ ["Problem fetching from log: " ++ err],
                  calls := st.calls + 1 } := by
  simp only [fetcherJobRange, h]

theorem fetcherJobRange_step (f : GetEntriesFn) (fuel : Nat) (r : fetchRange)
    (st : FetchState) (es : List LogEntry) (h : f st.calls r.start r.«end» = Except.ok es)
    (hn : r.start + (es.length : Int) ≤ r.«end») :
    fetcherJobRange f (fuel + 1) r st =
      fetcherJobRange f fuel ⟨r.start + (es.length : Int), r.«end»⟩
        { st with out := st.out ++ pushEntries r.start es, calls := st.calls + 1 } := by
  simp only [fetcherJobRange, h]
  rw [if_neg (by omega)]

theorem fetcherJobRange_done (f : GetEntriesFn) (fuel : Nat) (r : fetchRange)
    (st : FetchState) (es : List LogEntry) (h : f st.calls r.start r.«end» = Except.ok es)
    (hn : r.start + (es.length : Int) > r.«end») :
    fetcherJobRange f (fuel + 1) r st =
      some { st with out := st.out ++ pushEntries r.start es, calls := st.calls + 1 } := by
  simp only [fetcherJobRange, h]
  rw [if_pos hn]

theorem fetcherJobRange_certs (f : GetEntriesFn) :
    ∀ fuel r st st', fetcherJobRange f fuel r st = some st' →
      st'.certsProcessed = st.certsProcessed := by
  intro fuel
  induction fuel with
  | zero => intro r st st' h; cases h
  | succ fuel ih =>
    intro r st st' h
    cases hf : f st.calls r.start r.«end» with
    | error err =>
      rw [fetcherJobRange_retry f fuel r st err hf] at h
      have hrec := ih r
        { st with warnings := st.warnings ++ ["Problem fetching from log: " ++ err],
                  calls := st.calls + 1 } st' h
      exact hrec
    | ok es =>
      by_cases hn : r.start + (es.length : Int) > r.«end»
      · rw [fetcherJobRange_done f fuel r st es hf hn] at h
        cases h
        rfl
      · rw [fetcherJobRange_step f fuel r st es hf (by omega)] at h
        have hrec := ih ⟨r.start + (es.length : Int), r.«end»⟩
          { st with out := st.out ++ pushEntries r.start es, calls := st.calls + 1 } st' h
        exact hrec

theorem fetcherJobRange_fail (f : GetEntriesFn)
    (hfail : ∀ k a b, ∃ msg, f k a b = Except.error msg) :
    ∀ fuel r st, fetcherJobRange f fuel r st = none := by
  intro fuel
  induction fuel with
  | zero => intro r st; rfl
  | succ fuel ih =>
    intro r st
    obtain ⟨msg, hmsg⟩ := hfail st.calls r.start r.«end»
    rw [fetcherJobRange_retry f fuel r st msg hmsg]
    exact ih _ _

theorem fetcherJobRange_out (f : GetEntriesFn)
    (hc : ∀ k a b es, a ≤ b → f k a b = Except.ok es → (es.length : Int) ≤ b + 1 - a) :
    ∀ fuel r st st', r.start ≤ r.«end» → fetcherJobRange f fuel r st = some st' →
      st'.out.map LogEntry.Index = st.out.map LogEntry.Index ++ intRange r.start r.«end» := by
  intro fuel
  induction fuel with
  | zero => intro r st st' hr h; cases h
  | succ fuel ih =>
    intro r st st' hr h
    cases hf : f st.calls r.start r.«end» with
    | error err =>
      rw [fetcherJobRange_retry f fuel r st err hf] at h
      have hrec := ih r
        { st with warnings := st.warnings ++ ["Problem fetching from log: " ++ err],
                  calls := st.calls + 1 } st' hr h
      exact hrec
    | ok es =>
      have hlen := hc st.calls r.start r.«end» es hr hf
      by_cases hn : r.start + (es.length : Int) > r.«end»
      · rw [fetcherJobRange_done f fuel r st es hf hn] at h
        cases h
        simp only [List.map_append, pushEntries_map]
        have harg : r.start + (es.length : Int) - 1 = r.«end» := by omega
        rw [harg]
      · rw [fetcherJobRange_step f fuel r st es hf (by omega)] at h
        have hrec := ih ⟨r.start + (es.length : Int), r.«end»⟩ _ st'
          (show r.start + (es.length : Int) ≤ r.«end» by omega) h
        rw [hrec]
        simp only [List.map_append, pushEntries_map, List.append_assoc]
        have happ := intRange_append r.start (r.start + (es.length : Int)) r.«end»
          (by omega) (by omega)
        rw [happ]

theorem fetcherJobRange_full (fuel : Nat) (r : fetchRange) (st : FetchState)
    (hr : r.start ≤ r.«end») :
    fetcherJobRange fullFetch (fuel + 1) r st =
      some { st with
              out := st.out ++
                pushEntries r.start
                  (List.replicate (r.«end» + 1 - r.start).toNat (⟨0, 0⟩ : LogEntry)),
              calls := st.calls + 1 } := by
  have hf : fullFetch st.calls r.start r.«end» =
      Except.ok (List.replicate (r.«end» + 1 - r.start).toNat (⟨0, 0⟩ : LogEntry)) := rfl
  exact fetcherJobRange_done fullFetch fuel r st _ hf
    (by simp only [List.length_replicate]; omega)

theorem fetcherJob_nil (f : GetEntriesFn) (fuel : Nat) (st : FetchState) :
    fetcherJob f fuel [] st = some st := rfl

theorem fetcherJob_full (fuel : Nat) :
    ∀ (ranges : List fetchRange) (st : FetchState),
      (∀ r ∈ ranges, r.start ≤ r.«end») →
      ∃ st', fetcherJob fullFetch (fuel + 1) ranges st = some st' ∧
        st'.out.map LogEntry.Index = st.out.map LogEntry.Index ++ rangeIndices ranges ∧
        st'.certsProcessed = st.certsProcessed ∧
        st'.warnings = st.warnings := by
  intro ranges
  induction ranges with
  | nil =>
    intro st hr
    exact ⟨st, rfl, by simp [rangeIndices], rfl, rfl⟩
  | cons r rest ih =>
    intro st hr
    have hr0 : r.start ≤ r.«end» := hr r (List.mem_cons_self _ _)
    obtain ⟨st', heq, hout, hcerts, hwarn⟩ :=
      ih { st with
            out := st.out ++
              pushEntries r.start
                (List.replicate (r.«end» + 1 - r.start).toNat (⟨0, 0⟩ : LogEntry)),
            calls := st.calls + 1 }
        (fun r' hr' => hr r' (List.mem_cons_of_mem _ hr'))
    refine ⟨st', ?_, ?_, hcerts, hwarn⟩
    · simp only [fetcherJob, fetcherJobRange_full fuel r st hr0]
      exact heq
    · rw [hout]
      simp only [List.map_append, pushEntries_map, List.length_replicate, rangeIndices,
        List.append_assoc]
      have harg : r.start + (((r.«end» + 1 - r.start).toNat : Nat) : Int) - 1 = r.«end» := by
        omega
      rw [harg]

theorem processerJob_spec : ∀ (es : List LogEntry) (c : Int),
    processerJob es c = (c + (es.length : Int), es) := by
  intro es
  induction es with
  | nil => intro c; simp [processerJob]
  | cons entry rest ih =>
    intro c
    simp only [processerJob, ih (c + 1), List.length_cons]
    have harg : c + 1 + (rest.length : Int) = c + (((rest.length + 1 : Nat)) : Int) := by
      push_cast
      ring
    rw [harg]

theorem fullFetch_contract : ∀ (k : Nat) (a b : Int) (es : List LogEntry),
    a ≤ b → fullFetch k a b = Except.ok es → (es.length : Int) ≤ b + 1 - a := by
  intro k a b es hab h
  simp only [fullFetch, Except.ok.injEq] at h
  rw [← h, List.length_replicate]
  omega

theorem runPhases_startProcessor (ids : List Nat) :
    ∀ l, runPhases 0 (ids.map ScanEvent.startProcessor ++ l) = runPhases 0 l := by
  induction ids with
  | nil => intro l; rfl
  | cons i ids ih =>
    intro l
    simpa only [List.map_cons, List.cons_append, runPhases, shutdownPhase] using ih l

theorem runPhases_startFetcher (ids : List Nat) :
    ∀ l, runPhases 0 (ids.map ScanEvent.startFetcher ++ l) = runPhases 0 l := by
  induction ids with
  | nil => intro l; rfl
  | cons i ids ih =>
    intro l
    simpa only [List.map_cons, List.cons_append, runPhases, shutdownPhase] using ih l

theorem runPhases_enqueue (ranges : List fetchRange) :
    ∀ l, runPhases 0 (ranges.map ScanEvent.enqueueRange ++ l) = runPhases 0 l := by
  induction ranges with
  | nil => intro l; rfl
  | cons r ranges ih =>
    intro l
    simpa only [List.map_cons, List.cons_append, runPhases, shutdownPhase] using ih l

/-- C1: for every `startIndex < endIndex` and `batchSize > 0`, the partition loop of
`Scan` terminates (within `(endIndex - startIndex) + 1` iterations of fuel) and
produces an ordered sequence of ranges whose first range starts at `startIndex`,
whose consecutive ranges satisfy `r_i.end + 1 = r_{i+1}.start`, whose last range
ends at `endIndex - 1`, and each of whose ranges is nonempty and at most
`batchSize` wide; hence their indices, concatenated in order, are exactly
`startIndex, ..., endIndex - 1` with no gaps, overlaps, or disorder. -/
theorem Scan_partition_correct (startIndex endIndex batchSize : Int)
    (hse : startIndex < endIndex) (hb : 0 < batchSize) :
    ∃ l, partitionRanges ((endIndex - startIndex).toNat + 1) startIndex endIndex batchSize []
        = some l ∧
      l.head?.map fetchRange.start = some startIndex ∧
      chainB l = true ∧
      l.getLast?.map (fun r => r.«end») = some (endIndex - 1) ∧
      (∀ r ∈ l, r.start ≤ r.«end» ∧ r.«end» - r.start + 1 ≤ batchSize) ∧
      rangeIndices l = intRange startIndex (endIndex - 1) := by
  obtain ⟨l, heq, hcov⟩ := partitionRanges_covers endIndex batchSize hb
    ((endIndex - startIndex).toNat + 1) startIndex [] hse (by omega)
  exact ⟨l, heq, coversB_head _ _ _ _ hcov hse, coversB_chain _ _ _ _ hcov,
    coversB_last _ _ _ _ hcov hse, coversB_width _ _ _ _ hcov,
    coversB_rangeIndices _ _ _ _ hcov⟩

/-- Witness for C1 at `startIndex = 0`, `endIndex = 5`, `batchSize = 2`. -/
theorem Scan_partition_correct_witness :
    (0 : Int) < 5 ∧ (0 : Int) < 2 ∧
      ∃ l, partitionRanges (((5 : Int) - 0).toNat + 1) 0 5 2 [] = some l ∧
        l.head?.map fetchRange.start = some 0 ∧
        chainB l = true ∧
        l.getLast?.map (fun r => r.«end») = some ((5 : Int) - 1) ∧
        (∀ r ∈ l, r.start ≤ r.«end» ∧ r.«end» - r.start + 1 ≤ 2) ∧
        rangeIndices l = intRange 0 ((5 : Int) - 1) :=
  ⟨by decide, by decide, Scan_partition_correct 0 5 2 (by decide) (by decide)⟩

/-- C5 counterexample: at `startIndex = 0`, `endIndex = 10`, `batchSize = 0` — a
degenerate input by the claim — the partition loop does not yield zero ranges and
`Scan` does not complete: the loop makes no progress (each step re-pushes a range
at the same cursor), so for every fuel the loop is still running; in particular,
with fuel 100 both the partition and `Scan` fail to return instead of returning
an empty partition and a zero-entry result. -/
theorem degenerate_batch_counterexample :
    partitionRanges 100 0 10 0 [] = none ∧ Scan fullFetch 100 0 10 0 = none := by
  have hp := partitionRanges_nonpos 10 0 (by omega) 100 0 [] (by omega)
  refine ⟨hp, ?_⟩
  simp only [Scan, hp]

/-- C5 (amended): if `startIndex >= endIndex` the partition loop yields zero ranges
and `Scan` returns immediately — zero entries processed, no warnings, `nil` error —
for any batch size, positive or not; but if `batchSize <= 0` while
`startIndex < endIndex`, the partition loop never terminates (it returns within no
finite fuel), so `Scan` never completes; only the `startIndex >= endIndex` case is
the immediately-completing degenerate case. -/
theorem degenerate_inputs (f : GetEntriesFn) (s e b : Int) (fuel : Nat) :
    (e ≤ s → partitionRanges (fuel + 1) s e b [] = some [] ∧
      Scan f (fuel + 1) s e b = some ⟨[], 0, [], none⟩) ∧
    (b ≤ 0 → s < e → partitionRanges fuel s e b [] = none ∧ Scan f fuel s e b = none) := by
  constructor
  · intro h
    have hp := partitionRanges_stop fuel s e b [] h
    refine ⟨hp, ?_⟩
    simp only [Scan, hp]
    rfl
  · intro hb hse
    have hp := partitionRanges_nonpos e b hb fuel s [] hse
    refine ⟨hp, ?_⟩
    simp only [Scan, hp]

/-- Witness for the amended C5: `Scan(5, 5)` returns at once with zero entries, and
with `batchSize = 0` on `[0, 1)` the partitioner never returns. -/
theorem degenerate_inputs_witness :
    ((5 : Int) ≤ 5 ∧ partitionRanges 3 5 5 10 [] = some [] ∧
      Scan fullFetch 3 5 5 10 = some ⟨[], 0, [], none⟩) ∧
    ((0 : Int) ≤ 0 ∧ (0 : Int) < 1 ∧ partitionRanges 7 0 1 0 [] = none ∧
      Scan fullFetch 7 0 1 0 = none) :=
  ⟨⟨by decide, (degenerate_inputs fullFetch 5 5 10 2).1 (by decide)⟩,
   ⟨by decide, by decide, (degenerate_inputs fullFetch 0 1 0 7).2 (by decide) (by decide)⟩⟩

/-- C7: the orchestration trace of every `Scan` call is accepted by the
shutdown-order automaton in exactly phase 4: all range enqueues happen strictly
before the work queue is closed, which happens strictly before the wait on the
fetcher pool, then the entry queue is closed, then the processor pool is awaited —
each shutdown step exactly once, in exactly that order, for every worker-pool size
and every range list. -/
theorem Scan_shutdown_order (numWorkers parallelFetch : Nat) (ranges : List fetchRange) :
    runPhases 0 (scanEvents numWorkers parallelFetch ranges) = some 4 := by
  unfold scanEvents
  rw [List.append_assoc, List.append_assoc,
    runPhases_startProcessor, runPhases_startFetcher, runPhases_enqueue]
  rfl

/-- C8: `TreeSize` passes a successful tree size through unchanged, and passes a
failed `GetSTH` result through unchanged (with a zero size), with no retry. -/
theorem TreeSize_correct :
    (∀ sth : SignedTreeHead, TreeSize (Except.ok sth) = (sth.TreeSize, none)) ∧
    (∀ err : String, TreeSize (Except.error err) = (0, some err)) :=
  ⟨fun _ => rfl, fun _ => rfl⟩

/-- C2: assuming the fetch capability never returns more entries than requested
(the part of its contract that the worker relies on — returned indices are
irrelevant because the worker overwrites them), (i) after a successful call
returning `j` entries with `start + j <= end` still, the worker continues on
exactly the narrowed sub-range `[start + j, end]` with the `j` entries pushed;
(ii) whenever the worker completes a range `[start, end]` with `start <= end`, the
entries it appended to the entry queue carry exactly the indices
`start, ..., end`, in strictly ascending order, each exactly once; (iii) the index
pushed with each entry is taken from the advancing range cursor, independent of
whatever index the fetch result carried. -/
theorem fetcherJob_range_exact (f : GetEntriesFn)
    (hc : ∀ k a b es, a ≤ b → f k a b = Except.ok es → (es.length : Int) ≤ b + 1 - a) :
    (∀ fuel r st es, f st.calls r.start r.«end» = Except.ok es →
        r.start + (es.length : Int) ≤ r.«end» →
        fetcherJobRange f (fuel + 1) r st =
          fetcherJobRange f fuel ⟨r.start + (es.length : Int), r.«end»⟩
            { st with out := st.out ++ pushEntries r.start es, calls := st.calls + 1 }) ∧
    (∀ fuel r st st', r.start ≤ r.«end» → fetcherJobRange f fuel r st = some st' →
        st'.out.map LogEntry.Index = st.out.map LogEntry.Index ++ intRange r.start r.«end») ∧
    (∀ (s : Int) (es : List LogEntry),
        (pushEntries s es).map LogEntry.Index = intRange s (s + (es.length : Int) - 1)) :=
  ⟨fun fuel r st es h hn => fetcherJobRange_step f fuel r st es h hn,
   fetcherJobRange_out f hc,
   fun s es => pushEntries_map es s⟩

/-- Witness for C2: the full-range capability on the range `[0, 2]` makes the
worker emit exactly the indices 0, 1, 2. -/
theorem fetcherJob_range_exact_witness :
    (FetchState.out ⟨[⟨0, 0⟩, ⟨1, 0⟩, ⟨2, 0⟩], [], 0, 1⟩).map LogEntry.Index =
      (FetchState.out (⟨[], [], 0, 0⟩ : FetchState)).map LogEntry.Index ++ intRange 0 2 :=
  (fetcherJob_range_exact fullFetch fullFetch_contract).2.1 1 ⟨0, 2⟩ ⟨[], [], 0, 0⟩
    ⟨[⟨0, 0⟩, ⟨1, 0⟩, ⟨2, 0⟩], [], 0, 1⟩ (by decide) (by decide)

/-- C6: on a failed fetch the worker appends exactly one warning line and retries
the same range with nothing else changed — unconditionally, with no backoff, no
retry limit, and no inspection of the error; under a permanently failing
capability the range loop never completes within any fuel (so the worker never
terminates because of fetch failures, and no failure value is ever produced —
its result type has none); and the worker terminates exactly when the work queue
is closed and empty. -/
theorem fetcherJob_retry_policy (f : GetEntriesFn) :
    (∀ fuel r st err, f st.calls r.start r.«end» = Except.error err →
        fetcherJobRange f (fuel + 1) r st =
          fetcherJobRange f fuel r
            { st with warnings := st.warnings ++ ["Problem fetching from log: " ++ err],
                      calls := st.calls + 1 }) ∧
    ((∀ k a b, ∃ msg, f k a b = Except.error msg) →
        ∀ fuel r st, fetcherJobRange f fuel r st = none) ∧
    (∀ fuel st, fetcherJob f fuel [] st = some st) :=
  ⟨fun fuel r st err h => fetcherJobRange_retry f fuel r st err h,
   fetcherJobRange_fail f,
   fun _ _ => rfl⟩

/-- Witness for C6 with the always-failing capability. -/
theorem fetcherJob_retry_policy_witness :
    (fetcherJobRange failFetch 2 ⟨0, 1⟩ ⟨[], [], 0, 0⟩ =
      fetcherJobRange failFetch 1 ⟨0, 1⟩
        ⟨[], ["Problem fetching from log: " ++ "connection refused"], 0, 1⟩) ∧
    fetcherJobRange failFetch 3 ⟨0, 1⟩ ⟨[], [], 0, 0⟩ = none ∧
    fetcherJob failFetch 3 [] (⟨[], [], 0, 0⟩ : FetchState) = some ⟨[], [], 0, 0⟩ :=
  ⟨(fetcherJob_retry_policy failFetch).1 1 ⟨0, 1⟩ ⟨[], [], 0, 0⟩ "connection refused" rfl,
   (fetcherJob_retry_policy failFetch).2.1 (fun _ _ _ => ⟨"connection refused", rfl⟩)
     3 ⟨0, 1⟩ ⟨[], [], 0, 0⟩,
   (fetcherJob_retry_policy failFetch).2.2 3 ⟨[], [], 0, 0⟩⟩

/-- C4 counterexample: after the fetch worker has delivered all three entries of
the range `[0, 2]` to the entry queue, the shared `certsProcessed` counter is
still 0 — not 3 as incrementing "at delivery time to the entry queue" would give;
the counter reaches 3 only once the process worker has dequeued the three entries
(incrementing just before each handler invocation, scanner.go line 68). -/
theorem counter_not_incremented_at_delivery :
    fetcherJobRange fullFetch 1 ⟨0, 2⟩ ⟨[], [], 0, 0⟩ =
      some ⟨[⟨0, 0⟩, ⟨1, 0⟩, ⟨2, 0⟩], [], 0, 1⟩ ∧
    processerJob [⟨0, 0⟩, ⟨1, 0⟩, ⟨2, 0⟩] 0 = (3, [⟨0, 0⟩, ⟨1, 0⟩, ⟨2, 0⟩]) :=
  ⟨by decide, by decide⟩

/-- C4 (amended): each delivered entry increments the job-wide counter exactly
once, but in the process worker at dequeue time, immediately before the handler
invocation — not in the fetch worker at delivery time: `processerJob` adds exactly
the number of entries it dequeues to the counter, while the fetch worker's range
loop never changes `certsProcessed` at all. -/
theorem counter_incremented_at_processing (f : GetEntriesFn) :
    (∀ (es : List LogEntry) (c : Int), processerJob es c = (c + (es.length : Int), es)) ∧
    (∀ fuel r st st', fetcherJobRange f fuel r st = some st' →
        st'.certsProcessed = st.certsProcessed) :=
  ⟨fun es c => processerJob_spec es c, fetcherJobRange_certs f⟩

/-- Witness for the amended C4. -/
theorem counter_incremented_at_processing_witness :
    processerJob [⟨5, 7⟩] 0 = (0 + (((1 : Nat)) : Int), [⟨5, 7⟩]) ∧
    FetchState.certsProcessed ⟨[⟨0, 0⟩], [], 0, 1⟩ =
      FetchState.certsProcessed (⟨[], [], 0, 0⟩ : FetchState) :=
  ⟨(counter_incremented_at_processing fullFetch).1 [⟨5, 7⟩] 0,
   (counter_incremented_at_processing fullFetch).2 1 ⟨0, 0⟩ ⟨[], [], 0, 0⟩
     ⟨[⟨0, 0⟩], [], 0, 1⟩ (by decide)⟩

/-- C9: whenever `Scan` returns, its Go return value is `nil`: for every
capability behaviour, every fuel and every input, a completed `Scan` carries
`err = none` — no code path produces a failure value. -/
theorem Scan_returns_nil (f : GetEntriesFn) (fuel : Nat) (s e b : Int) (res : ScanResult)
    (h : Scan f fuel s e b = some res) : res.err = none := by
  cases hp : partitionRanges fuel s e b [] with
  | none => simp [Scan, hp] at h
  | some ranges =>
    cases hf : fetcherJob f fuel ranges ⟨[], [], 0, 0⟩ with
    | none => simp [Scan, hp, hf] at h
    | some st =>
      simp only [Scan, hp, hf, Option.some.injEq] at h
      rw [← h]

/-- Witness for C9. -/
theorem Scan_returns_nil_witness :
    ScanResult.err ⟨[⟨0, 0⟩], 1, [], none⟩ = none :=
  Scan_returns_nil fullFetch 2 0 1 5 ⟨[⟨0, 0⟩], 1, [], none⟩ (by decide)

/-- C3: given the capability that always returns the full requested range on the
first call, `Scan(0, 5000)` with `batchSize = 1000` hands the handler exactly one
entry per index of `[0, 5000)` — the delivered indices are exactly
`0, 1, ..., 4999`, in order, no duplicates, no omissions — and `certsProcessed`
is 5000 when `Scan` returns. -/
theorem Scan_full_range_exact :
    (Scan fullFetch 6 0 5000 1000).map
        (fun res => (res.handlerCalls.map LogEntry.Index, res.certsProcessed)) =
      some (intRange 0 4999, 5000) := by
  have hp : partitionRanges 6 0 5000 1000 [] =
      some [⟨0, 999⟩, ⟨1000, 1999⟩, ⟨2000, 2999⟩, ⟨3000, 3999⟩, ⟨4000, 4999⟩] := by
    decide
  have hcov : coversB 1000 0 5000
      [⟨0, 999⟩, ⟨1000, 1999⟩, ⟨2000, 2999⟩, ⟨3000, 3999⟩, ⟨4000, 4999⟩] = true := by
    decide
  obtain ⟨st', heq, hout, hcerts, hwarn⟩ :=
    fetcherJob_full 5 [⟨0, 999⟩, ⟨1000, 1999⟩, ⟨2000, 2999⟩, ⟨3000, 3999⟩, ⟨4000, 4999⟩]
      ⟨[], [], 0, 0⟩ (by decide)
  have heq6 : fetcherJob fullFetch 6
      [⟨0, 999⟩, ⟨1000, 1999⟩, ⟨2000, 2999⟩, ⟨3000, 3999⟩, ⟨4000, 4999⟩]
      ⟨[], [], 0, 0⟩ = some st' := heq
  have hm : st'.out.map LogEntry.Index = intRange 0 4999 := by
    rw [hout, coversB_rangeIndices 1000 _ _ _ hcov]
    rfl
  have hlen : st'.out.length = 5000 := by
    have hlm := congrArg List.length hm
    rw [List.length_map, intRange_length] at hlm
    exact hlm.trans rfl
  simp only [Scan, hp, heq6, processerJob_spec, Option.map_some']
  rw [hcerts, hm, hlen]
  rfl

/-- C10: for every nonnegative `seconds`, `humanTime` returns the concatenation of
the components "H hours ", "M minutes ", "S seconds " in that order, with
`H = seconds / 3600`, `M = (seconds mod 3600) / 60`, `S = seconds mod 60`, each
component omitted exactly when its value is zero; in particular
`humanTime 0 = ""`. -/
theorem humanTime_correct (seconds : Int) (h : 0 ≤ seconds) :
    (humanTime seconds =
      (if seconds / 3600 = 0 then "" else toString (seconds / 3600) ++ " hours ") ++
      (if seconds % 3600 / 60 = 0 then "" else toString (seconds % 3600 / 60) ++ " minutes ") ++
      (if seconds % 60 = 0 then "" else toString (seconds % 60) ++ " seconds ")) ∧
    humanTime 0 = "" := by
  refine ⟨?_, rfl⟩
  have h1 : Int.tdiv (seconds * 1000000000) 3600000000000 = seconds / 3600 := by
    rw [Int.tdiv_eq_ediv (by omega) (by omega)]
    omega
  have h2 : Int.tmod (seconds * 1000000000) 3600000000000 = (seconds % 3600) * 1000000000 := by
    rw [Int.tmod_eq_emod (by omega) (by omega)]
    omega
  have h3 : Int.tdiv ((seconds % 3600) * 1000000000) 60000000000 = seconds % 3600 / 60 := by
    rw [Int.tdiv_eq_ediv (by omega) (by omega)]
    omega
  have h4 : Int.tmod ((seconds % 3600) * 1000000000) 60000000000 =
      (seconds % 60) * 1000000000 := by
    rw [Int.tmod_eq_emod (by omega) (by omega)]
    omega
  have h5 : Int.tdiv ((seconds % 60) * 1000000000) 1000000000 = seconds % 60 := by
    rw [Int.tdiv_eq_ediv (by omega) (by omega)]
    omega
  simp only [humanTime]
  rw [h1, h2, h3, h4, h5]
  have e1 : (seconds / 3600 > 0) ↔ ¬(seconds / 3600 = 0) := by omega
  have e2 : (seconds % 3600 / 60 > 0) ↔ ¬(seconds % 3600 / 60 = 0) := by omega
  have e3 : (seconds % 60 > 0) ↔ ¬(seconds % 60 = 0) := by omega
  simp only [e1, e2, e3, ite_not]
  split_ifs <;> simp [String.append_assoc]

/-- Witness for C10 at `seconds = 3661` (one hour, one minute, one second). -/
theorem humanTime_correct_witness :
    (0 : Int) ≤ 3661 ∧
      ((humanTime 3661 =
        (if (3661 : Int) / 3600 = 0 then ""
          else toString ((3661 : Int) / 3600) ++ " hours ") ++
        (if (3661 : Int) % 3600 / 60 = 0 then ""
          else toString ((3661 : Int) % 3600 / 60) ++ " minutes ") ++
        (if (3661 : Int) % 60 = 0 then ""
          else toString ((3661 : Int) % 60) ++ " seconds ")) ∧
      humanTime 0 = "") :=
  ⟨by decide, humanTime_correct 3661 (by decide)⟩
